import Mathlib

/-!
Shallow embedding of the patch-comparison pipeline of
`examples/zed_doc_prompt` (files `internal/patch_parser.py`,
`internal/name_extractor.py`, `evaluate.py`).

Conventions of the embedding:
* Python strings are `String` (lists of characters); `str.splitlines`,
  `str.strip`, `str.startswith` are modelled on the common line-break and
  whitespace characters (space, tab, LF, CR, VT, FF) — the characters the
  regexes of the source (`\s`) recognise.  `\w` is modelled on ASCII word
  characters.
* Python floats are modelled as exact rationals `ℚ`; the literals
  `0.5`, `0.35`, `0.15` are exact.
* A Python `dict` (insertion ordered, assignment overwrites in place) is an
  association list `List (String × List String)` with `dictSet` / `dget`.
* The three anchored regexes of `name_extractor.py` are deterministic:
  every quantifier in them is followed by a character class disjoint from
  the quantified one, so greedy maximal munch never backtracks; they are
  therefore embedded as straight-line scanners over `List Char`.
-/

namespace ZedDoc

/-- Whitespace recognised by `str.strip()` / regex `\s`:
space, tab, LF, CR, VT (0x0b), FF (0x0c). -/
def isPyWs (c : Char) : Bool :=
  c == ' ' || c == '\t' || c == '\n' || c == '\r' || c.toNat == 11 || c.toNat == 12

/-- Line-break characters of `str.splitlines()` (the subset modelled:
LF, CR, VT, FF; CRLF is a single break). -/
def isLineBreak (c : Char) : Bool :=
  c == '\n' || c == '\r' || c.toNat == 11 || c.toNat == 12

/-- Model of Python `str.strip()` on the character list. -/
def pyStripList (cs : List Char) : List Char :=
  ((cs.dropWhile isPyWs).reverse.dropWhile isPyWs).reverse

/-- Model of Python `str.strip()`. -/
def pyStrip (s : String) : String := String.mk (pyStripList s.data)

/-- Worker for `splitlines`: `acc` is the current line, reversed. -/
def splitlinesAux : List Char → List Char → List String
  | [], acc => if acc.isEmpty then [] else [String.mk acc.reverse]
  | '\r' :: '\n' :: rest, acc => String.mk acc.reverse :: splitlinesAux rest []
  | c :: rest, acc =>
      if isLineBreak c then String.mk acc.reverse :: splitlinesAux rest []
      else splitlinesAux rest (c :: acc)

/-- Model of Python `str.splitlines()` (no trailing empty line; a final
line without a terminator is kept). -/
def splitlines (s : String) : List String := splitlinesAux s.data []

/-- Model of Python `str.startswith(p)`. -/
def strStartsWith (s p : String) : Bool := p.data.isPrefixOf s.data

/-- The `HunkMap` of the parser: insertion-ordered mapping from file path
to the list of hunk texts (a Python `dict`). -/
abbrev HunkMap := List (String × List String)

/-- Python `d[k] = v`: overwrite in place when the key exists, else append. -/
def dictSet (d : HunkMap) (k : String) (v : List String) : HunkMap :=
  if d.any (fun e => e.1 == k) then
    d.map (fun e => if e.1 == k then (k, v) else e)
  else d ++ [(k, v)]

/-- Python `d.get(k, [])`. -/
def dget (d : HunkMap) (k : String) : List String :=
  match d.find? (fun e => e.1 == k) with
  | some e => e.2
  | none => []

/-- Python `'\n'.join(ls)`. -/
def joinNL : List String → String
  | [] => ""
  | [s] => s
  | s :: rest => s ++ "\n" ++ joinNL rest

/-- Model of `re.match(r'^\+\+\+\s+b/(.+)$', ln)` followed by `.group(1).strip()`:
three `+` characters, at least one whitespace, `b/`, then a non-empty
remainder (the path), which is stripped.  (Within a line produced by
`splitlines` the `.`/`$` subtleties of the regex are vacuous.) -/
def matchFileHeader (ln : String) : Option String :=
  match ln.data with
  | c1 :: c2 :: c3 :: rest =>
      if c1 == '+' && c2 == '+' && c3 == '+' then
        if (rest.takeWhile isPyWs).isEmpty then none
        else
          match rest.dropWhile isPyWs with
          | b :: s :: path =>
              if b == 'b' && s == '/' && !path.isEmpty then
                some (pyStrip (String.mk path))
              else none
          | _ => none
      else none
  | _ => none

/-- Parser state of the loop in `parse_file_hunks`. -/
structure PState where
  files : HunkMap
  current : Option String
  hunks : List String
  buf : List String

/-- Embeds `if hunk_buf: current_hunks.append('\n'.join(hunk_buf))`. -/
def flushBuf (hunks : List String) (buf : List String) : List String :=
  if buf.isEmpty then hunks else hunks ++ [joinNL buf]

/-- One iteration of the `for ln in lines` loop of `parse_file_hunks`. -/
def pstep (st : PState) (ln : String) : PState :=
  match matchFileHeader ln with
  | some path =>
      let files :=
        match st.current with
        | some f => dictSet st.files f (flushBuf st.hunks st.buf)
        | none => st.files
      ⟨files, some path, [], []⟩
  | none =>
      if strStartsWith ln "@@" then
        ⟨st.files, st.current, flushBuf st.hunks st.buf, [ln]⟩
      else if st.current.isSome &&
          (strStartsWith ln "+" || strStartsWith ln "-" || strStartsWith ln " ") then
        ⟨st.files, st.current, st.hunks, st.buf ++ [ln]⟩
      else st

/-- The finalization after the loop of `parse_file_hunks`
(`# finalize last`). -/
def pfinal (st : PState) : HunkMap :=
  match st.current with
  | some f => dictSet st.files f (flushBuf st.hunks st.buf)
  | none => st.files

/-- Function `parse_file_hunks` of `internal/patch_parser.py`. -/
def parse_file_hunks (diff : String) : HunkMap :=
  if diff = "" then []
  else pfinal ((splitlines diff).foldl pstep ⟨[], none, [], []⟩)

/-- Hunk sequence of a single file section, used to state what the parser
stores for a path: collect hunks from `lines` until the next
`+++ b/<path>` header or the end of input (`hunks` and `buf` are the
already-finished hunks and the in-progress hunk buffer, mirroring the
loop's accumulators). -/
def sectionHunksAux (hunks buf : List String) : List String → List String
  | [] => flushBuf hunks buf
  | ln :: rest =>
      if (matchFileHeader ln).isSome then flushBuf hunks buf
      else if strStartsWith ln "@@" then sectionHunksAux (flushBuf hunks buf) [ln] rest
      else if strStartsWith ln "+" || strStartsWith ln "-" || strStartsWith ln " " then
        sectionHunksAux hunks (buf ++ [ln]) rest
      else sectionHunksAux hunks buf rest

/-- Hunk sequence of the file section whose body is `lines` (the lines
following its `+++ b/<path>` header). -/
def sectionHunks (lines : List String) : List String := sectionHunksAux [] [] lines

/-- Regex `\w` (modelled on ASCII): letters, digits, underscore. -/
def isWordChar (c : Char) : Bool :=
  (decide (97 ≤ c.toNat) && decide (c.toNat ≤ 122)) ||
  (decide (65 ≤ c.toNat) && decide (c.toNat ≤ 90)) ||
  (decide (48 ≤ c.toNat) && decide (c.toNat ≤ 57)) || c == '_'

/-- First character of an identifier, `[A-Za-z_]`. -/
def isIdentStart (c : Char) : Bool :=
  (decide (97 ≤ c.toNat) && decide (c.toNat ≤ 122)) ||
  (decide (65 ≤ c.toNat) && decide (c.toNat ≤ 90)) || c == '_'

/-- Regex `\s*`: maximal whitespace skip. -/
def skipWs (cs : List Char) : List Char := cs.dropWhile isPyWs

/-- Consume the literal `lit`. -/
def matchLit (lit : List Char) (cs : List Char) : Option (List Char) :=
  if lit.isPrefixOf cs then some (cs.drop lit.length) else none

/-- Regex `([A-Za-z_]\w*)`: maximal identifier at the head of `cs`;
returns the identifier and the rest. -/
def matchIdent (cs : List Char) : Option (String × List Char) :=
  match cs with
  | c :: rest =>
      if isIdentStart c then
        some (String.mk (c :: rest.takeWhile isWordChar), rest.dropWhile isWordChar)
      else none
  | [] => none

/-- Common shape of `pattern_def` and `pattern_class`:
`^\s*<kw>\s+([A-Za-z_]\w*)\s*[<finals>]` anchored at the start of the line. -/
def matchKwDecl (kw : List Char) (finals : List Char) (cs : List Char) : Option String :=
  (matchLit kw (skipWs cs)).elim none (fun r1 =>
    if (r1.takeWhile isPyWs).isEmpty then none
    else
      (matchIdent (skipWs r1)).elim none (fun nr =>
        ((skipWs nr.2).head?).elim none (fun c =>
          if finals.contains c then some nr.1 else none)))

/-- Embeds `pattern_def = re.compile(r'^\s*def\s+([A-Za-z_]\w*)\s*\(')`. -/
def matchDefLine (cs : List Char) : Option String :=
  matchKwDecl ['d', 'e', 'f'] ['('] cs

/-- Embeds `pattern_class = re.compile(r'^\s*class\s+([A-Za-z_]\w*)\s*[:\(]')`. -/
def matchClassLine (cs : List Char) : Option String :=
  matchKwDecl ['c', 'l', 'a', 's', 's'] [':', '('] cs

/-- Embeds `pattern_assign = re.compile(r'^\s*([A-Za-z_]\w*)\s*=')`. -/
def matchAssignLine (cs : List Char) : Option String :=
  (matchIdent (skipWs cs)).elim none (fun nr =>
    if (skipWs nr.2).head? = some '=' then some nr.1 else none)

/-- Embeds `content = ln[1:] if ln.startswith(('+', '-', ' ')) else ln`. -/
def stripMarker (ln : String) : List Char :=
  match ln.data with
  | '+' :: rest => rest
  | '-' :: rest => rest
  | ' ' :: rest => rest
  | cs => cs

/-- Body of the `for ln in hunk.splitlines()` loop of
`extract_funcs_and_vars_from_hunk` (first match wins; the matchers all
receive `content`, the line with its diff marker stripped). -/
def exstep (acc : Finset String × Finset String) (ln : String) :
    Finset String × Finset String :=
  match matchDefLine (stripMarker ln) with
  | some n => (insert n acc.1, acc.2)
  | none =>
      match matchClassLine (stripMarker ln) with
      | some n => (insert n acc.1, acc.2)
      | none =>
          match matchAssignLine (stripMarker ln) with
          | some n => (acc.1, insert n acc.2)
          | none => acc

/-- Function `extract_funcs_and_vars_from_hunk` of `internal/name_extractor.py`:
the pair (functions found, variables found) of one hunk. -/
def extract_funcs_and_vars_from_hunk (hunk : String) : Finset String × Finset String :=
  (splitlines hunk).foldl exstep (∅, ∅)

/-- Function `collect_funcs_vars_from_files_map` of `internal/name_extractor.py`. -/
def collect_funcs_vars_from_files_map (m : HunkMap) : Finset String × Finset String :=
  m.foldl (fun acc e =>
    e.2.foldl (fun acc2 h =>
      let fv := extract_funcs_and_vars_from_hunk h
      (acc2.1 ∪ fv.1, acc2.2 ∪ fv.2)) acc) (∅, ∅)

/-- The local `jaccard` of `score_patch_similarity`. -/
def jaccard (s1 s2 : Finset String) : ℚ :=
  if s1 = ∅ ∧ s2 = ∅ then 1
  else if s1 = ∅ ∨ s2 = ∅ then 0
  else if (s1 ∪ s2).card ≠ 0 then ((s1 ∩ s2).card : ℚ) / ((s1 ∪ s2).card : ℚ)
  else 0

/-- Union of the key sets of the two maps (`set(g).union(set(a))`). -/
def keysUnion (gf af : HunkMap) : Finset String :=
  (gf.map Prod.fst).toFinset ∪ (af.map Prod.fst).toFinset

/-- Lines 87–102 of `evaluate.py`: the file-identity component.
`g` and `a` are the (already stripped) inputs of the scorer. -/
def file_identity_score (g a : String) (gf af : HunkMap) : ℚ :=
  if gf = [] ∧ af = [] then
    if pyStrip g = pyStrip a ∧ g ≠ "" then 1 else 0
  else
    if keysUnion gf af = ∅ then 0
    else
      (((keysUnion gf af).filter (fun p =>
          dget gf p ≠ [] ∧ dget af p ≠ [] ∧ dget gf p = dget af p)).card : ℚ) /
        ((keysUnion gf af).card : ℚ)

/-- Python `min` on two numbers. -/
def pymin (x y : ℚ) : ℚ := if x ≤ y then x else y

/-- Python `max` on two numbers. -/
def pymax (x y : ℚ) : ℚ := if y ≤ x then x else y

/-- Function `score_patch_similarity` of `evaluate.py`. -/
def score_patch_similarity (generated actual : String) : ℚ :=
  if pyStrip generated = "" ∧ pyStrip actual = "" then 0
  else
    pymax 0 (pymin 1 (
      (0.5 : ℚ) * file_identity_score (pyStrip generated) (pyStrip actual)
          (parse_file_hunks (pyStrip generated)) (parse_file_hunks (pyStrip actual))
      + (0.35 : ℚ) * jaccard
          (collect_funcs_vars_from_files_map (parse_file_hunks (pyStrip generated))).1
          (collect_funcs_vars_from_files_map (parse_file_hunks (pyStrip actual))).1
      + (0.15 : ℚ) * jaccard
          (collect_funcs_vars_from_files_map (parse_file_hunks (pyStrip generated))).2
          (collect_funcs_vars_from_files_map (parse_file_hunks (pyStrip actual))).2))

/-- Modelled from the claim/spec wording of C3 (for refinement comparison
only, not from the code): a path of the union `P` counts as a match exactly
when it is a key of both maps and the two hunk sequences are equal
element-for-element, including the case where both sequences are empty. -/
def fileScoreClaim (gf af : HunkMap) : ℚ :=
  if keysUnion gf af = ∅ then 0
  else
    (((keysUnion gf af).filter (fun p =>
        p ∈ gf.map Prod.fst ∧ p ∈ af.map Prod.fst ∧ dget gf p = dget af p)).card : ℚ) /
      ((keysUnion gf af).card : ℚ)

/-- The C3 wording amended with the non-emptiness requirement the code
imposes (`if g_hunks and a_hunks and g_hunks == a_hunks`). -/
def fileScoreClaimFixed (gf af : HunkMap) : ℚ :=
  if keysUnion gf af = ∅ then 0
  else
    (((keysUnion gf af).filter (fun p =>
        p ∈ gf.map Prod.fst ∧ p ∈ af.map Prod.fst ∧ dget gf p = dget af p ∧
          dget gf p ≠ [])).card : ℚ) /
      ((keysUnion gf af).card : ℚ)

/-- A hunk text that may legally start a file's hunk list: it begins with
a `@@` header line or with a `+`/`-`/space body line. -/
def hunkStartsBody (s : String) : Prop :=
  strStartsWith s "@@" = true ∨ strStartsWith s "+" = true ∨
  strStartsWith s "-" = true ∨ strStartsWith s " " = true

/-- Well-formedness of one file's hunk list as the parser produces it:
every hunk after the first starts with `@@`; the first (if any) starts
with `@@` or with a body-line marker. -/
def hunksOk : List String → Prop
  | [] => True
  | h :: t => hunkStartsBody h ∧ ∀ x ∈ t, strStartsWith x "@@" = true

/-- Loop invariant of the parser used to prove `hunksOk` of every stored
hunk list. -/
def pinv (st : PState) : Prop :=
  (∀ e ∈ st.files, hunksOk e.2) ∧ hunksOk st.hunks ∧
  (st.hunks ≠ [] → st.buf ≠ []) ∧
  (∀ b t, st.buf = b :: t →
    hunkStartsBody b ∧ (st.hunks ≠ [] → strStartsWith b "@@" = true))

/-- Predicate: the string is a non-empty identifier `[A-Za-z_]\w*`. -/
def isIdentNameB (s : String) : Bool :=
  match s.data with
  | [] => false
  | c :: cs => isIdentStart c && cs.all isWordChar

example : parse_file_hunks "+++ b/a\n@@ h\n+x" = [("a", ["@@ h\n+x"])] := by decide

/-! ### Basic evaluation lemmas -/

theorem pyStrip_empty : pyStrip "" = "" := rfl

theorem parse_empty_diff : parse_file_hunks "" = [] := rfl

theorem collect_nil : collect_funcs_vars_from_files_map [] = (∅, ∅) := rfl

theorem dget_nil (k : String) : dget [] k = [] := rfl

theorem jaccard_empty_empty : jaccard ∅ ∅ = 1 := by simp [jaccard]

theorem jaccard_right_empty (s : Finset String) (h : s ≠ ∅) : jaccard s ∅ = 0 := by
  simp [jaccard, h]

theorem jaccard_left_empty (s : Finset String) (h : s ≠ ∅) : jaccard ∅ s = 0 := by
  simp [jaccard, h]

theorem jaccard_self (s : Finset String) : jaccard s s = 1 := by
  by_cases h : s = ∅
  · simp [jaccard, h]
  · have hc : s.card ≠ 0 := by
      simpa [Finset.card_eq_zero, ← Finset.not_nonempty_iff_eq_empty] using
        fun hz => h (Finset.card_eq_zero.mp hz)
    simp only [jaccard, Finset.inter_self, Finset.union_self]
    rw [if_neg (by simp [h]), if_neg (by simp [h]), if_pos hc]
    exact div_self (by exact_mod_cast hc)

theorem score_eval (g a : String) (h : ¬(pyStrip g = "" ∧ pyStrip a = "")) :
    score_patch_similarity g a =
      pymax 0 (pymin 1 (
        (0.5 : ℚ) * file_identity_score (pyStrip g) (pyStrip a)
            (parse_file_hunks (pyStrip g)) (parse_file_hunks (pyStrip a))
        + (0.35 : ℚ) * jaccard
            (collect_funcs_vars_from_files_map (parse_file_hunks (pyStrip g))).1
            (collect_funcs_vars_from_files_map (parse_file_hunks (pyStrip a))).1
        + (0.15 : ℚ) * jaccard
            (collect_funcs_vars_from_files_map (parse_file_hunks (pyStrip g))).2
            (collect_funcs_vars_from_files_map (parse_file_hunks (pyStrip a))).2)) := by
  unfold score_patch_similarity
  rw [if_neg h]

theorem file_identity_right_nil (g a : String) (gf : HunkMap) (h : gf ≠ []) :
    file_identity_score g a gf [] = 0 := by
  unfold file_identity_score
  rw [if_neg (by simp [h])]
  by_cases hP : keysUnion gf [] = ∅
  · rw [if_pos hP]
  · rw [if_neg hP]
    have hfil : (keysUnion gf []).filter
        (fun p => dget gf p ≠ [] ∧ dget [] p ≠ [] ∧ dget gf p = dget [] p) = ∅ := by
      apply Finset.filter_false_of_mem
      intro p _
      simp [dget_nil]
    rw [hfil]
    simp

theorem file_identity_left_nil (g a : String) (af : HunkMap) (h : af ≠ []) :
    file_identity_score g a [] af = 0 := by
  unfold file_identity_score
  rw [if_neg (by simp [h])]
  by_cases hP : keysUnion [] af = ∅
  · rw [if_pos hP]
  · rw [if_neg hP]
    have hfil : (keysUnion [] af).filter
        (fun p => dget [] p ≠ [] ∧ dget af p ≠ [] ∧ dget [] p = dget af p) = ∅ := by
      apply Finset.filter_false_of_mem
      intro p _
      simp [dget_nil]
    rw [hfil]
    simp

theorem collect_fst_empty_of_nil (m : HunkMap) (h : m = []) :
    collect_funcs_vars_from_files_map m = (∅, ∅) := by
  rw [h]; rfl

/-! ### Claim C1 -/

/-- Claim C1 counterexample: the claim states that `score(d, "")` and
`score("", d)` are `0.0` for every non-empty `d`.  At `d = "x"` both parsed
maps are empty and both extracted identifier-set pairs are `(∅, ∅)`, so the
two Jaccard components are `1.0` each (the code's both-empty convention),
and the score is `0.5`, not `0.0`. -/
theorem claimC1_cex :
    score_patch_similarity "x" "" = 1/2 ∧ score_patch_similarity "" "x" = 1/2 ∧
    score_patch_similarity "x" "" ≠ 0 ∧ score_patch_similarity "" "x" ≠ 0 := by
  have h1 : pyStrip "x" = "x" := by decide
  have h3 : parse_file_hunks "x" = [] := by decide
  have hx : score_patch_similarity "x" "" = 1/2 := by
    rw [score_eval "x" "" (by decide)]
    rw [h1, pyStrip_empty, h3, parse_empty_diff, collect_nil]
    have h4 : file_identity_score "x" "" [] [] = 0 := by
      unfold file_identity_score
      rw [if_pos ⟨rfl, rfl⟩, if_neg (by decide)]
    rw [h4]
    norm_num [jaccard_empty_empty, pymin, pymax]
  have hy : score_patch_similarity "" "x" = 1/2 := by
    rw [score_eval "" "x" (by decide)]
    rw [h1, pyStrip_empty, h3, parse_empty_diff, collect_nil]
    have h4 : file_identity_score "" "x" [] [] = 0 := by
      unfold file_identity_score
      rw [if_pos ⟨rfl, rfl⟩, if_neg (by decide)]
    rw [h4]
    norm_num [jaccard_empty_empty, pymin, pymax]
  refine ⟨hx, hy, ?_, ?_⟩ <;> norm_num [hx, hy]

/-- Claim C1 amended: `score(d, "") = score("", d) = 0.0` holds for every
`d` that is non-empty after trimming, provided the diff yields a non-empty
function-identifier set and a non-empty variable-identifier set (then the
file component is 0, and both Jaccard components compare a non-empty set
against an empty one, hence 0).  Without that proviso the two Jaccard
components evaluate to `1.0` on two empty sets and the score is positive. -/
theorem claimC1_amended (d : String) (hne : pyStrip d ≠ "")
    (hf : (collect_funcs_vars_from_files_map (parse_file_hunks (pyStrip d))).1 ≠ ∅)
    (hv : (collect_funcs_vars_from_files_map (parse_file_hunks (pyStrip d))).2 ≠ ∅) :
    score_patch_similarity d "" = 0 ∧ score_patch_similarity "" d = 0 := by
  have hgf : parse_file_hunks (pyStrip d) ≠ [] := by
    intro h0
    exact hf (by rw [collect_fst_empty_of_nil _ h0])
  constructor
  · rw [score_eval d "" (by simp [hne, pyStrip_empty])]
    rw [pyStrip_empty, parse_empty_diff, collect_nil]
    rw [file_identity_right_nil _ _ _ hgf]
    rw [jaccard_right_empty _ hf, jaccard_right_empty _ hv]
    norm_num [pymin, pymax]
  · rw [score_eval "" d (by simp [hne, pyStrip_empty])]
    rw [pyStrip_empty, parse_empty_diff, collect_nil]
    rw [file_identity_left_nil _ _ _ hgf]
    rw [jaccard_left_empty _ hf, jaccard_left_empty _ hv]
    norm_num [pymin, pymax]

/-- Witness for C1 amended at a concrete diff with one function (`f`) and
one variable (`y`). -/
theorem claimC1_amended_witness :
    pyStrip "+++ b/a\n@@ h\n+def f(x):\n+y = 1" ≠ "" ∧
    (collect_funcs_vars_from_files_map
      (parse_file_hunks (pyStrip "+++ b/a\n@@ h\n+def f(x):\n+y = 1"))).1 ≠ ∅ ∧
    (collect_funcs_vars_from_files_map
      (parse_file_hunks (pyStrip "+++ b/a\n@@ h\n+def f(x):\n+y = 1"))).2 ≠ ∅ ∧
    score_patch_similarity "+++ b/a\n@@ h\n+def f(x):\n+y = 1" "" = 0 ∧
    score_patch_similarity "" "+++ b/a\n@@ h\n+def f(x):\n+y = 1" = 0 :=
  ⟨by decide, by decide, by decide,
    (claimC1_amended "+++ b/a\n@@ h\n+def f(x):\n+y = 1"
      (by decide) (by decide) (by decide)).1,
    (claimC1_amended "+++ b/a\n@@ h\n+def f(x):\n+y = 1"
      (by decide) (by decide) (by decide)).2⟩

/-! ### Claim C9 -/

/-- Claim C9: the three extractor scenarios of the spec, exactly as stated:
a `+def handle_request(self, req):` line yields function set
`{"handle_request"}` and no variables; a `+    timeout = 30` line yields
variable set `{"timeout"}` and no functions; a `+    if timeout == 30:`
line yields two empty sets. -/
theorem claimC9_extractor_scenarios :
    extract_funcs_and_vars_from_hunk "+def handle_request(self, req):"
        = ({"handle_request"}, ∅) ∧
    extract_funcs_and_vars_from_hunk "+    timeout = 30" = (∅, {"timeout"}) ∧
    extract_funcs_and_vars_from_hunk "+    if timeout == 30:" = (∅, ∅) := by
  decide

/-! ### Properties of `pyStrip` -/

theorem dropWhile_head_not {p : Char → Bool} (l : List Char) (c : Char)
    (h : (l.dropWhile p).head? = some c) : p c = false := by
  induction l with
  | nil => simp at h
  | cons a t ih =>
      rw [List.dropWhile_cons] at h
      by_cases hpa : p a = true
      · rw [if_pos hpa] at h
        exact ih h
      · rw [if_neg hpa] at h
        simp at h
        rw [← h]
        exact Bool.eq_false_iff.mpr hpa

theorem dropWhile_of_head_not {p : Char → Bool} (l : List Char)
    (h : ∀ c, l.head? = some c → p c = false) : l.dropWhile p = l := by
  cases l with
  | nil => rfl
  | cons a t =>
      rw [List.dropWhile_cons, if_neg]
      rw [h a rfl]
      simp

theorem pyStripList_head (cs : List Char) :
    ∀ c, (pyStripList cs).head? = some c → isPyWs c = false := by
  intro c hc
  unfold pyStripList at hc
  rw [List.head?_reverse] at hc
  by_cases hd : ((cs.dropWhile isPyWs).reverse.dropWhile isPyWs) = []
  · rw [hd] at hc
    simp at hc
  · have hsplit : (cs.dropWhile isPyWs).reverse =
        (cs.dropWhile isPyWs).reverse.takeWhile isPyWs ++
          (cs.dropWhile isPyWs).reverse.dropWhile isPyWs :=
      (List.takeWhile_append_dropWhile isPyWs _).symm
    have hlast : ((cs.dropWhile isPyWs).reverse.dropWhile isPyWs).getLast? =
        (cs.dropWhile isPyWs).reverse.getLast? := by
      conv_rhs => rw [hsplit]
      rw [List.getLast?_append_of_ne_nil _ hd]
    rw [hlast, List.getLast?_reverse] at hc
    exact dropWhile_head_not cs c hc

theorem pyStripList_last (cs : List Char) :
    ∀ c, (pyStripList cs).getLast? = some c → isPyWs c = false := by
  intro c hc
  unfold pyStripList at hc
  rw [List.getLast?_reverse] at hc
  exact dropWhile_head_not _ c hc

theorem pyStripList_idem (cs : List Char) :
    pyStripList (pyStripList cs) = pyStripList cs := by
  have h1 := pyStripList_head cs
  have h2 := pyStripList_last cs
  show ((List.dropWhile isPyWs (pyStripList cs)).reverse.dropWhile isPyWs).reverse
      = pyStripList cs
  rw [dropWhile_of_head_not _ h1]
  have h3 : (pyStripList cs).reverse.dropWhile isPyWs = (pyStripList cs).reverse := by
    apply dropWhile_of_head_not
    intro c hc
    rw [List.head?_reverse] at hc
    exact h2 c hc
  rw [h3, List.reverse_reverse]

theorem pyStrip_idem (s : String) : pyStrip (pyStrip s) = pyStrip s := by
  show String.mk (pyStripList (String.mk (pyStripList s.data)).data) = _
  rw [show (String.mk (pyStripList s.data)).data = pyStripList s.data from rfl]
  rw [pyStripList_idem]
  rfl

/-! ### Claim C7 -/

/-- Claim C7: when both parsed maps are empty, the file-identity component
is exact full-text equality of the trimmed inputs — `1.0` when the two
trimmed texts are equal and non-empty, else `0.0`.  (The inputs of
`file_identity_score` inside the scorer are the trimmed strings; their
re-trimming inside the branch collapses by idempotence of `strip`.) -/
theorem claimC7_both_empty_fallback (generated actual : String)
    (hg : parse_file_hunks (pyStrip generated) = [])
    (ha : parse_file_hunks (pyStrip actual) = []) :
    file_identity_score (pyStrip generated) (pyStrip actual)
        (parse_file_hunks (pyStrip generated)) (parse_file_hunks (pyStrip actual)) =
      if pyStrip generated = pyStrip actual ∧ pyStrip generated ≠ "" then 1 else 0 := by
  rw [hg, ha]
  unfold file_identity_score
  rw [if_pos ⟨rfl, rfl⟩, pyStrip_idem, pyStrip_idem]

/-- Witness for C7 at `generated = actual = "x"` (maps empty, equal
non-empty trimmed texts, component 1). -/
theorem claimC7_witness :
    parse_file_hunks (pyStrip "x") = [] ∧
    file_identity_score (pyStrip "x") (pyStrip "x")
        (parse_file_hunks (pyStrip "x")) (parse_file_hunks (pyStrip "x")) =
      if pyStrip "x" = pyStrip "x" ∧ pyStrip "x" ≠ "" then 1 else 0 :=
  ⟨by decide, claimC7_both_empty_fallback "x" "x" (by decide) (by decide)⟩

/-! ### Claim C8 -/

theorem ws_beq_false_left (c d : Char) (h : isPyWs c = true) (hd : isPyWs d = false) :
    (c == d) = false := by
  rw [beq_eq_false_iff_ne]
  intro he
  rw [he, hd] at h
  cases h

theorem ws_beq_false_right (c d : Char) (h : isPyWs c = true) (hd : isPyWs d = false) :
    (d == c) = false := by
  rw [beq_eq_false_iff_ne]
  intro he
  rw [← he, hd] at h
  cases h

theorem matchFileHeader_ws (ln : String) (h : ∀ c ∈ ln.data, isPyWs c = true) :
    matchFileHeader ln = none := by
  unfold matchFileHeader
  cases hd : ln.data with
  | nil => rfl
  | cons c1 rest1 =>
      cases rest1 with
      | nil => rfl
      | cons c2 rest2 =>
          cases rest2 with
          | nil => rfl
          | cons c3 rest =>
              have h1 : isPyWs c1 = true := h c1 (by rw [hd]; simp)
              have h2 : (c1 == '+') = false := ws_beq_false_left c1 '+' h1 (by decide)
              simp [h2]

theorem strStartsWith_ws_false (ln : String) (p : String) (c0 : Char) (cs0 : List Char)
    (hp : p.data = c0 :: cs0) (h0 : isPyWs c0 = false)
    (h : ∀ c ∈ ln.data, isPyWs c = true) : strStartsWith ln p = false := by
  unfold strStartsWith
  rw [hp]
  cases hd : ln.data with
  | nil => rfl
  | cons c cs =>
      have hc : isPyWs c = true := h c (by rw [hd]; simp)
      show ((c0 == c) && List.isPrefixOf cs0 cs) = false
      rw [ws_beq_false_right c c0 hc h0]
      rfl

theorem pstep_ws_init (ln : String) (h : ∀ c ∈ ln.data, isPyWs c = true) :
    pstep ⟨[], none, [], []⟩ ln = ⟨[], none, [], []⟩ := by
  unfold pstep
  rw [matchFileHeader_ws ln h]
  rw [strStartsWith_ws_false ln "@@" '@' ['@'] rfl (by decide) h]
  simp

theorem foldl_pstep_ws (lines : List String)
    (h : ∀ l ∈ lines, ∀ c ∈ l.data, isPyWs c = true) :
    lines.foldl pstep ⟨[], none, [], []⟩ = ⟨[], none, [], []⟩ := by
  induction lines with
  | nil => rfl
  | cons l ls ih =>
      rw [List.foldl_cons, pstep_ws_init l (h l (by simp))]
      exact ih (fun l' hl' => h l' (by simp [hl']))

theorem splitlinesAux_ws : ∀ (cs acc : List Char),
    (∀ c ∈ cs, isPyWs c = true) → (∀ c ∈ acc, isPyWs c = true) →
    ∀ l ∈ splitlinesAux cs acc, ∀ c ∈ l.data, isPyWs c = true := by
  intro cs acc
  induction cs, acc using splitlinesAux.induct with
  | case1 acc hemp =>
      intro _ _ l hl
      simp [splitlinesAux, hemp] at hl
  | case2 acc hemp =>
      intro _ hacc l hl
      have : l = String.mk acc.reverse := by
        simp [splitlinesAux, hemp] at hl
        exact hl
      subst this
      intro c hc
      exact hacc c (by simpa using hc)
  | case3 rest acc ih =>
      intro hcs hacc l hl
      rw [show splitlinesAux ('\r' :: '\n' :: rest) acc
            = String.mk acc.reverse :: splitlinesAux rest [] from rfl] at hl
      rcases List.mem_cons.mp hl with h1 | h1
      · subst h1
        intro c hc
        exact hacc c (by simpa using hc)
      · exact ih (fun c hc => hcs c (by simp [hc])) (by simp) l h1
  | case4 c rest acc hguard hlb ih =>
      intro hcs hacc l hl
      rw [splitlinesAux.eq_3 acc c rest hguard, if_pos hlb] at hl
      rcases List.mem_cons.mp hl with h1 | h1
      · subst h1
        intro ch hc
        exact hacc ch (by simpa using hc)
      · exact ih (fun ch hc => hcs ch (by simp [hc])) (by simp) l h1
  | case5 c rest acc hguard hnlb ih =>
      intro hcs hacc l hl
      rw [splitlinesAux.eq_3 acc c rest hguard, if_neg hnlb] at hl
      refine ih (fun ch hc => hcs ch (by simp [hc])) ?_ l hl
      intro ch hc
      rcases List.mem_cons.mp hc with h1 | h1
      · subst h1
        exact hcs ch (by simp)
      · exact hacc ch h1

/-- Claim C8: `parse_file_hunks` is total (embedded as a total Lean
function: every operation in the source loop is total, so there is no
failure mode to model), the empty input yields an empty map, and every
whitespace-only input yields an empty map (no header, hunk marker or body
marker can begin with a whitespace character). -/
theorem claimC8_total_whitespace :
    parse_file_hunks "" = [] ∧
    ∀ s : String, (∀ c ∈ s.data, isPyWs c = true) → parse_file_hunks s = [] := by
  refine ⟨rfl, ?_⟩
  intro s hws
  unfold parse_file_hunks
  by_cases hs : s = ""
  · rw [if_pos hs]
  · rw [if_neg hs]
    have hlines : ∀ l ∈ splitlines s, ∀ c ∈ l.data, isPyWs c = true :=
      splitlinesAux_ws s.data [] hws (by simp)
    rw [foldl_pstep_ws (splitlines s) hlines]
    rfl

/-- Witness for C8 at the whitespace-only input `" \n\t "`. -/
theorem claimC8_witness :
    (∀ c ∈ (" \n\t " : String).data, isPyWs c = true) ∧ parse_file_hunks " \n\t " = [] :=
  ⟨by decide, claimC8_total_whitespace.2 " \n\t " (by decide)⟩

/-! ### Generic loop invariants of the parser -/

theorem foldl_pstep_inv (P : PState → Prop)
    (hstep : ∀ st ln, P st → P (pstep st ln)) :
    ∀ (lines : List String) (st : PState), P st → P (lines.foldl pstep st) := by
  intro lines
  induction lines with
  | nil => intro st h; exact h
  | cons l ls ih =>
      intro st h
      rw [List.foldl_cons]
      exact ih _ (hstep _ _ h)

/-! ### Claim C2 -/

theorem dictSet_keys_nodup (d : HunkMap) (k : String) (v : List String)
    (h : (d.map Prod.fst).Nodup) : ((dictSet d k v).map Prod.fst).Nodup := by
  unfold dictSet
  by_cases hany : d.any (fun e => e.1 == k) = true
  · rw [if_pos hany, List.map_map]
    have hmap : d.map (Prod.fst ∘ fun e => if (e.1 == k) = true then (k, v) else e)
        = d.map Prod.fst := by
      apply List.map_congr_left
      intro e _
      by_cases hk : e.1 = k
      · simp [hk]
      · simp [hk]
    rw [hmap]
    exact h
  · rw [if_neg hany, List.map_append]
    have hk : k ∉ d.map Prod.fst := by
      intro hmem
      rcases List.mem_map.mp hmem with ⟨e, he, hfst⟩
      exact hany (List.any_eq_true.mpr ⟨e, he, by simp [hfst]⟩)
    simp [List.nodup_append, h, hk]

theorem pstep_files (st : PState) (ln : String) :
    (pstep st ln).files =
      match matchFileHeader ln with
      | some _ =>
          (match st.current with
           | some f => dictSet st.files f (flushBuf st.hunks st.buf)
           | none => st.files)
      | none => st.files := by
  unfold pstep
  cases matchFileHeader ln with
  | some path => cases st.current <;> rfl
  | none =>
      by_cases h1 : strStartsWith ln "@@" = true
      · rw [if_pos h1]
      · rw [if_neg h1]
        by_cases h2 : (st.current.isSome &&
            (strStartsWith ln "+" || strStartsWith ln "-" || strStartsWith ln " ")) = true
        · rw [if_pos h2]
        · rw [if_neg h2]

theorem pstep_keys_nodup (st : PState) (ln : String)
    (h : (st.files.map Prod.fst).Nodup) :
    ((pstep st ln).files.map Prod.fst).Nodup := by
  rw [pstep_files]
  cases matchFileHeader ln with
  | some path =>
      cases st.current with
      | some f => exact dictSet_keys_nodup _ _ _ h
      | none => exact h
  | none => exact h

theorem pfinal_keys_nodup (st : PState)
    (h : (st.files.map Prod.fst).Nodup) : ((pfinal st).map Prod.fst).Nodup := by
  unfold pfinal
  cases st.current with
  | some f => exact dictSet_keys_nodup _ _ _ h
  | none => exact h

theorem parse_keys_nodup (d : String) :
    ((parse_file_hunks d).map Prod.fst).Nodup := by
  unfold parse_file_hunks
  by_cases hd : d = ""
  · rw [if_pos hd]
    exact List.nodup_nil
  · rw [if_neg hd]
    apply pfinal_keys_nodup
    exact foldl_pstep_inv (fun st => (st.files.map Prod.fst).Nodup)
      pstep_keys_nodup (splitlines d) _ (by simp)

/-- Claim C2 counterexample: the claim states that a path appearing under
two `+++ b/<path>` headers maps to the concatenation of both sections'
hunks.  In the code `files[current_file] = current_hunks` overwrites the
earlier entry, so only the last section's hunks survive: on the diff below
the entry for `a` is `["@@ g\n+y"]`, not `["@@ h\n+x", "@@ g\n+y"]`. -/
theorem claimC2_cex :
    parse_file_hunks "+++ b/a\n@@ h\n+x\n+++ b/a\n@@ g\n+y" = [("a", ["@@ g\n+y"])] ∧
    dget (parse_file_hunks "+++ b/a\n@@ h\n+x\n+++ b/a\n@@ g\n+y") "a"
      ≠ ["@@ h\n+x", "@@ g\n+y"] := by
  constructor <;> decide

theorem dget_cons (e : String × List String) (es : HunkMap) (p : String) :
    dget (e :: es) p = if e.1 = p then e.2 else dget es p := by
  unfold dget
  by_cases h : e.1 = p
  · rw [List.find?_cons_of_pos _ (by simp [h]), if_pos h]
  · rw [List.find?_cons_of_neg _ (by simp [h]), if_neg h]

theorem dget_map_overwrite_self (k : String) (v : List String) :
    ∀ d : HunkMap, d.any (fun e => e.1 == k) = true →
      dget (d.map (fun e => if e.1 == k then (k, v) else e)) k = v := by
  intro d
  induction d with
  | nil => intro h; cases h
  | cons e es ih =>
      intro h
      simp only [List.map_cons]
      by_cases hk : e.1 = k
      · rw [if_pos (show (e.1 == k) = true by simp [hk]), dget_cons, if_pos rfl]
      · rw [if_neg (show ¬(e.1 == k) = true by simp [hk]), dget_cons, if_neg hk]
        rw [List.any_cons, Bool.or_eq_true] at h
        rcases h with h0 | h0
        · exact absurd (by simpa using h0) hk
        · exact ih h0

theorem dget_map_overwrite_other (k : String) (v : List String) (p : String) (hkp : k ≠ p) :
    ∀ d : HunkMap,
      dget (d.map (fun e => if e.1 == k then (k, v) else e)) p = dget d p := by
  intro d
  induction d with
  | nil => rfl
  | cons e es ih =>
      simp only [List.map_cons]
      by_cases hk : e.1 = k
      · rw [if_pos (show (e.1 == k) = true by simp [hk]), dget_cons, dget_cons]
        rw [if_neg (show ¬((k, v).1 = p) from hkp),
          if_neg (show ¬(e.1 = p) from by rw [hk]; exact hkp)]
        exact ih
      · rw [if_neg (show ¬(e.1 == k) = true by simp [hk]), dget_cons, dget_cons]
        by_cases hp : e.1 = p
        · rw [if_pos hp, if_pos hp]
        · rw [if_neg hp, if_neg hp]
          exact ih

theorem dget_append_single_self (k : String) (v : List String) :
    ∀ d : HunkMap, d.any (fun e => e.1 == k) = false →
      dget (d ++ [(k, v)]) k = v := by
  intro d
  induction d with
  | nil =>
      intro _
      rw [List.nil_append, dget_cons, if_pos rfl]
  | cons e es ih =>
      intro h
      rw [List.cons_append, dget_cons]
      rw [List.any_cons] at h
      have h1 : (e.1 == k) = false := by
        cases hc : (e.1 == k) with
        | false => rfl
        | true => rw [hc] at h; simp at h
      rw [if_neg (by simpa using h1)]
      rw [h1, Bool.false_or] at h
      exact ih h

theorem dget_append_single_other (k : String) (v : List String) (p : String) (hkp : k ≠ p) :
    ∀ d : HunkMap, dget (d ++ [(k, v)]) p = dget d p := by
  intro d
  induction d with
  | nil =>
      rw [List.nil_append, dget_cons, if_neg (show ¬((k, v).1 = p) from hkp)]
  | cons e es ih =>
      rw [List.cons_append, dget_cons, dget_cons]
      by_cases hp : e.1 = p
      · rw [if_pos hp, if_pos hp]
      · rw [if_neg hp, if_neg hp]
        exact ih

theorem dget_dictSet_self (d : HunkMap) (k : String) (v : List String) :
    dget (dictSet d k v) k = v := by
  unfold dictSet
  by_cases h : d.any (fun e => e.1 == k) = true
  · rw [if_pos h]
    exact dget_map_overwrite_self k v d h
  · rw [if_neg h]
    refine dget_append_single_self k v d ?_
    cases hb : d.any (fun e => e.1 == k) with
    | false => rfl
    | true => exact absurd hb h

theorem dget_dictSet_other (d : HunkMap) (k : String) (v : List String) (p : String)
    (hkp : k ≠ p) : dget (dictSet d k v) p = dget d p := by
  unfold dictSet
  by_cases h : d.any (fun e => e.1 == k) = true
  · rw [if_pos h]
    exact dget_map_overwrite_other k v p hkp d
  · rw [if_neg h]
    exact dget_append_single_other k v p hkp d

theorem pstep_header_eq (st : PState) (ln : String) (p : String)
    (hm : matchFileHeader ln = some p) :
    pstep st ln =
      ⟨match st.current with
       | some f => dictSet st.files f (flushBuf st.hunks st.buf)
       | none => st.files, some p, [], []⟩ := by
  unfold pstep
  rw [hm]

theorem pstep_none_eq (st : PState) (ln : String) (hm : matchFileHeader ln = none) :
    pstep st ln =
      if strStartsWith ln "@@" = true then
        ⟨st.files, st.current, flushBuf st.hunks st.buf, [ln]⟩
      else if (st.current.isSome &&
          (strStartsWith ln "+" || strStartsWith ln "-" || strStartsWith ln " ")) = true then
        ⟨st.files, st.current, st.hunks, st.buf ++ [ln]⟩
      else st := by
  unfold pstep
  rw [hm]

theorem pstep_current (st : PState) (ln : String) :
    (pstep st ln).current =
      match matchFileHeader ln with
      | some q => some q
      | none => st.current := by
  cases hm : matchFileHeader ln with
  | some q => rw [pstep_header_eq st ln q hm]
  | none =>
      rw [pstep_none_eq st ln hm]
      by_cases h1 : strStartsWith ln "@@" = true
      · rw [if_pos h1]
      · rw [if_neg h1]
        by_cases h2 : (st.current.isSome &&
            (strStartsWith ln "+" || strStartsWith ln "-" || strStartsWith ln " ")) = true
        · rw [if_pos h2]
        · rw [if_neg h2]

theorem dget_foldl_no_header (p : String) : ∀ (lines : List String) (st : PState),
    st.current ≠ some p →
    (∀ ln ∈ lines, matchFileHeader ln ≠ some p) →
    dget (pfinal (lines.foldl pstep st)) p = dget st.files p := by
  intro lines
  induction lines with
  | nil =>
      intro st hcur _
      rw [List.foldl_nil]
      unfold pfinal
      cases hc : st.current with
      | none => rfl
      | some f =>
          have hfp : f ≠ p := fun he => hcur (by rw [hc, he])
          exact dget_dictSet_other _ _ _ _ hfp
  | cons ln rest ih =>
      intro st hcur hno
      rw [List.foldl_cons]
      have hcur' : (pstep st ln).current ≠ some p := by
        rw [pstep_current]
        cases hm : matchFileHeader ln with
        | some q =>
            intro he
            apply hno ln (by simp)
            rw [hm]
            exact he
        | none => exact hcur
      have hfiles' : dget (pstep st ln).files p = dget st.files p := by
        rw [pstep_files]
        cases hm : matchFileHeader ln with
        | some q =>
            cases hc : st.current with
            | none => rfl
            | some f =>
                have hfp : f ≠ p := fun he => hcur (by rw [hc, he])
                exact dget_dictSet_other _ _ _ _ hfp
        | none => rfl
      rw [ih (pstep st ln) hcur' (fun l hl => hno l (by simp [hl])), hfiles']

theorem dget_foldl_section (p : String) : ∀ (lines : List String) (fs : HunkMap)
    (hk bf : List String),
    (∀ ln ∈ lines, matchFileHeader ln ≠ some p) →
    dget (pfinal (lines.foldl pstep ⟨fs, some p, hk, bf⟩)) p = sectionHunksAux hk bf lines := by
  intro lines
  induction lines with
  | nil =>
      intro fs hk bf _
      show dget (pfinal ⟨fs, some p, hk, bf⟩) p = flushBuf hk bf
      unfold pfinal
      exact dget_dictSet_self _ _ _
  | cons ln rest ih =>
      intro fs hk bf hno
      rw [List.foldl_cons]
      cases hm : matchFileHeader ln with
      | some q =>
          have hq : q ≠ p := by
            intro he
            apply hno ln (by simp)
            rw [hm, he]
          have hsec : sectionHunksAux hk bf (ln :: rest) = flushBuf hk bf := by
            show (if (matchFileHeader ln).isSome = true then flushBuf hk bf
                else if strStartsWith ln "@@" = true then
                  sectionHunksAux (flushBuf hk bf) [ln] rest
                else if (strStartsWith ln "+" || strStartsWith ln "-" ||
                    strStartsWith ln " ") = true then
                  sectionHunksAux hk (bf ++ [ln]) rest
                else sectionHunksAux hk bf rest) = flushBuf hk bf
            rw [hm]
            rfl
          rw [pstep_header_eq _ _ q hm]
          rw [dget_foldl_no_header p rest _ (fun he => hq (Option.some.inj he))
            (fun l hl => hno l (by simp [hl]))]
          show dget (dictSet fs p (flushBuf hk bf)) p = sectionHunksAux hk bf (ln :: rest)
          rw [dget_dictSet_self, hsec]
      | none =>
          have hsecstep : sectionHunksAux hk bf (ln :: rest) =
              (if strStartsWith ln "@@" = true then sectionHunksAux (flushBuf hk bf) [ln] rest
               else if (strStartsWith ln "+" || strStartsWith ln "-" ||
                   strStartsWith ln " ") = true then sectionHunksAux hk (bf ++ [ln]) rest
               else sectionHunksAux hk bf rest) := by
            show (if (matchFileHeader ln).isSome = true then flushBuf hk bf
                else if strStartsWith ln "@@" = true then
                  sectionHunksAux (flushBuf hk bf) [ln] rest
                else if (strStartsWith ln "+" || strStartsWith ln "-" ||
                    strStartsWith ln " ") = true then
                  sectionHunksAux hk (bf ++ [ln]) rest
                else sectionHunksAux hk bf rest) = _
            rw [hm]
            rfl
          rw [pstep_none_eq _ _ hm, hsecstep]
          have hnorest : ∀ l ∈ rest, matchFileHeader l ≠ some p :=
            fun l hl => hno l (by simp [hl])
          by_cases h1 : strStartsWith ln "@@" = true
          · rw [if_pos h1, if_pos h1]
            exact ih _ _ _ hnorest
          · rw [if_neg h1, if_neg h1]
            by_cases h2 : (strStartsWith ln "+" || strStartsWith ln "-" ||
                strStartsWith ln " ") = true
            · rw [if_pos (show ((⟨fs, some p, hk, bf⟩ : PState).current.isSome &&
                  (strStartsWith ln "+" || strStartsWith ln "-" ||
                   strStartsWith ln " ")) = true from by simp [h2]), if_pos h2]
              exact ih _ _ _ hnorest
            · rw [if_neg (show ¬((⟨fs, some p, hk, bf⟩ : PState).current.isSome &&
                  (strStartsWith ln "+" || strStartsWith ln "-" ||
                   strStartsWith ln " ")) = true from by simp [h2]), if_neg h2]
              exact ih _ _ _ hnorest

/-- Claim C2 amended: the map returned by `parse_file_hunks` always has
pairwise-distinct keys (a duplicated path is represented by a single key),
and the value kept for a path is the hunk list of its *last* section only:
for every diff whose lines split as `l1 ++ h :: l2` with `h` a
`+++ b/<path>` header for `p` and no further header for `p` in `l2`, the
stored value for `p` is exactly the hunks collected from `l2` up to the
next file header — later sections overwrite earlier ones instead of
concatenating. -/
theorem claimC2_amended :
    (∀ d : String, ((parse_file_hunks d).map Prod.fst).Nodup) ∧
    (∀ (d p : String) (l1 : List String) (h : String) (l2 : List String),
      splitlines d = l1 ++ h :: l2 →
      matchFileHeader h = some p →
      (∀ ln ∈ l2, matchFileHeader ln ≠ some p) →
      dget (parse_file_hunks d) p = sectionHunks l2) := by
  refine ⟨parse_keys_nodup, ?_⟩
  intro d p l1 h l2 hsplit hm hno
  have hd : d ≠ "" := by
    intro h0
    rw [h0] at hsplit
    have hnil : ([] : List String) = l1 ++ h :: l2 := hsplit
    simp at hnil
  unfold parse_file_hunks
  rw [if_neg hd, hsplit, List.foldl_append, List.foldl_cons]
  rw [pstep_header_eq _ _ p hm]
  exact dget_foldl_section p l2 _ [] [] hno

/-- Witness for C2 amended at the duplicate-header diff: the value stored
for `a` is the hunk list of its last section. -/
theorem claimC2_witness :
    splitlines "+++ b/a\n@@ h\n+x\n+++ b/a\n@@ g\n+y"
      = ["+++ b/a", "@@ h", "+x"] ++ "+++ b/a" :: ["@@ g", "+y"] ∧
    matchFileHeader "+++ b/a" = some "a" ∧
    (∀ ln ∈ ["@@ g", "+y"], matchFileHeader ln ≠ some "a") ∧
    dget (parse_file_hunks "+++ b/a\n@@ h\n+x\n+++ b/a\n@@ g\n+y") "a"
      = sectionHunks ["@@ g", "+y"] :=
  ⟨by decide, by decide, by decide,
    claimC2_amended.2 "+++ b/a\n@@ h\n+x\n+++ b/a\n@@ g\n+y" "a"
      ["+++ b/a", "@@ h", "+x"] "+++ b/a" ["@@ g", "+y"]
      (by decide) (by decide) (by decide)⟩

/-! ### Claim C3 -/

theorem dget_ne_nil_mem (d : HunkMap) (p : String) (h : dget d p ≠ []) :
    p ∈ d.map Prod.fst := by
  unfold dget at h
  cases hf : d.find? (fun e => e.1 == p) with
  | none => rw [hf] at h; simp at h
  | some e =>
      have he := List.mem_of_find?_eq_some hf
      have hp : e.1 = p := by simpa using List.find?_some hf
      rw [← hp]
      exact List.mem_map.mpr ⟨e, he, rfl⟩

/-- Claim C3 counterexample: on the one-file no-hunk diff `+++ b/a.py`
both maps are `{"a.py" ↦ []}`; the path is a key of both maps with equal
(empty) hunk sequences, so the claim's rule yields `fileScore = 1`, but the
code's condition `if g_hunks and a_hunks and ...` rejects empty sequences
and yields `0`. -/
theorem claimC3_cex :
    parse_file_hunks "+++ b/a.py" = [("a.py", [])] ∧
    file_identity_score "+++ b/a.py" "+++ b/a.py"
        (parse_file_hunks "+++ b/a.py") (parse_file_hunks "+++ b/a.py") = 0 ∧
    fileScoreClaim (parse_file_hunks "+++ b/a.py") (parse_file_hunks "+++ b/a.py") = 1 := by
  have hp : parse_file_hunks "+++ b/a.py" = [("a.py", [])] := by decide
  refine ⟨hp, ?_, ?_⟩
  · rw [hp]
    unfold file_identity_score
    rw [if_neg (by simp), if_neg (by decide)]
    have hfil : (keysUnion [("a.py", [])] [("a.py", [])]).filter
        (fun p => dget [("a.py", [])] p ≠ [] ∧ dget [("a.py", [])] p ≠ [] ∧
          dget [("a.py", [])] p = dget [("a.py", [])] p) = ∅ := by decide
    rw [hfil]
    simp
  · rw [hp]
    unfold fileScoreClaim
    rw [if_neg (by decide)]
    have hfil : (keysUnion [("a.py", [])] [("a.py", [])]).filter
        (fun p => p ∈ (([("a.py", [])] : HunkMap)).map Prod.fst ∧
          p ∈ (([("a.py", [])] : HunkMap)).map Prod.fst ∧
          dget [("a.py", [])] p = dget [("a.py", [])] p)
        = keysUnion [("a.py", [])] [("a.py", [])] := by decide
    rw [hfil]
    have hcard : (keysUnion [("a.py", [])] [("a.py", [])]).card = 1 := by decide
    rw [hcard]
    norm_num

/-- Claim C3 amended: with at least one parsed map non-empty, a path of
the union is counted as a match exactly when it is a key of both maps,
the two hunk sequences are equal element-for-element, *and they are
non-empty*; `fileScore = matches / |P|`, and `0` when `P` is empty.  (The
code's per-path condition on `d.get(p, [])` values coincides with this
key-membership formulation.) -/
theorem claimC3_amended (g a : String) (gf af : HunkMap) (h : ¬(gf = [] ∧ af = [])) :
    file_identity_score g a gf af = fileScoreClaimFixed gf af := by
  unfold file_identity_score fileScoreClaimFixed
  rw [if_neg h]
  by_cases hP : keysUnion gf af = ∅
  · rw [if_pos hP, if_pos hP]
  · rw [if_neg hP, if_neg hP]
    have hfil : (keysUnion gf af).filter
        (fun p => dget gf p ≠ [] ∧ dget af p ≠ [] ∧ dget gf p = dget af p)
        = (keysUnion gf af).filter
        (fun p => p ∈ gf.map Prod.fst ∧ p ∈ af.map Prod.fst ∧ dget gf p = dget af p ∧
          dget gf p ≠ []) := by
      apply Finset.filter_congr
      intro p _
      constructor
      · rintro ⟨h1, h2, h3⟩
        exact ⟨dget_ne_nil_mem gf p h1, dget_ne_nil_mem af p h2, h3, h1⟩
      · rintro ⟨_, _, h3, h4⟩
        exact ⟨h4, by rw [← h3]; exact h4, h3⟩
    rw [hfil]

/-- Witness for C3 amended at concrete maps with the left one non-empty. -/
theorem claimC3_witness :
    ¬(([("p", ["h"])] : HunkMap) = [] ∧ ([] : HunkMap) = []) ∧
    file_identity_score "" "" [("p", ["h"])] [] = fileScoreClaimFixed [("p", ["h"])] [] :=
  ⟨by simp, claimC3_amended "" "" [("p", ["h"])] [] (by simp)⟩

/-! ### Claim C4 -/

theorem isPrefixOf_append_right {p l : List Char} (m : List Char)
    (h : p.isPrefixOf l = true) : p.isPrefixOf (l ++ m) = true := by
  induction p generalizing l with
  | nil => simp [List.isPrefixOf]
  | cons a as ih =>
      cases l with
      | nil => simp [List.isPrefixOf] at h
      | cons b bs =>
          rw [List.cons_append]
          show (a == b && as.isPrefixOf (bs ++ m)) = true
          have h' : (a == b && as.isPrefixOf bs) = true := h
          rw [Bool.and_eq_true] at h'
          rcases h' with ⟨h1, h2⟩
          rw [h1, ih h2]
          rfl

theorem strStartsWith_append (s t p : String) (h : strStartsWith s p = true) :
    strStartsWith (s ++ t) p = true := by
  unfold strStartsWith at h ⊢
  rw [String.data_append]
  exact isPrefixOf_append_right _ h

theorem joinNL_startsWith (b : String) (t : List String) (p : String)
    (h : strStartsWith b p = true) : strStartsWith (joinNL (b :: t)) p = true := by
  cases t with
  | nil => exact h
  | cons x xs =>
      show strStartsWith (b ++ "\n" ++ joinNL (x :: xs)) p = true
      exact strStartsWith_append _ _ _ (strStartsWith_append _ _ _ h)

theorem joinNL_body (b : String) (t : List String) (h : hunkStartsBody b) :
    hunkStartsBody (joinNL (b :: t)) := by
  rcases h with h | h | h | h
  · exact Or.inl (joinNL_startsWith b t _ h)
  · exact Or.inr (Or.inl (joinNL_startsWith b t _ h))
  · exact Or.inr (Or.inr (Or.inl (joinNL_startsWith b t _ h)))
  · exact Or.inr (Or.inr (Or.inr (joinNL_startsWith b t _ h)))

theorem flushBuf_ok (hunks buf : List String)
    (hh : hunksOk hunks)
    (hb : ∀ b t, buf = b :: t →
      hunkStartsBody b ∧ (hunks ≠ [] → strStartsWith b "@@" = true)) :
    hunksOk (flushBuf hunks buf) := by
  unfold flushBuf
  cases buf with
  | nil => simpa using hh
  | cons b t =>
      rw [if_neg (by simp)]
      rcases hb b t rfl with ⟨hb0, hb1⟩
      cases hunks with
      | nil =>
          rw [List.nil_append]
          exact ⟨joinNL_body b t hb0, by simp⟩
      | cons h0 hs =>
          rw [List.cons_append]
          refine ⟨hh.1, ?_⟩
          intro x hx
          rcases List.mem_append.mp hx with hx | hx
          · exact hh.2 x hx
          · rw [List.mem_singleton.mp hx]
            exact joinNL_startsWith b t _ (hb1 (by simp))

theorem mem_dictSet (d : HunkMap) (k : String) (v : List String)
    (e : String × List String) (he : e ∈ dictSet d k v) : e ∈ d ∨ e.2 = v := by
  unfold dictSet at he
  by_cases hany : d.any (fun e => e.1 == k) = true
  · rw [if_pos hany] at he
    rcases List.mem_map.mp he with ⟨e', he', heq⟩
    by_cases hk : e'.1 = k
    · right
      rw [← heq]
      simp [hk]
    · left
      rw [← heq]
      simpa [hk] using he'
  · rw [if_neg hany] at he
    rcases List.mem_append.mp he with h1 | h1
    · exact Or.inl h1
    · right
      rw [List.mem_singleton.mp h1]

theorem pinv_buf_append (files : HunkMap) (cur : Option String)
    (hunks buf : List String) (ln : String)
    (hfiles : ∀ e ∈ files, hunksOk e.2) (hhunks : hunksOk hunks)
    (hbe : hunks ≠ [] → buf ≠ [])
    (hbuf : ∀ b t, buf = b :: t →
      hunkStartsBody b ∧ (hunks ≠ [] → strStartsWith b "@@" = true))
    (hmark : hunkStartsBody ln) :
    pinv ⟨files, cur, hunks, buf ++ [ln]⟩ := by
  cases buf with
  | nil =>
      have hhe : hunks = [] := by
        by_contra hne
        exact (hbe hne) rfl
      refine ⟨hfiles, hhunks, fun _ => by simp, ?_⟩
      intro b t hbt
      rw [List.nil_append] at hbt
      have hb : b = ln := by
        have := congrArg List.head? hbt
        simpa using this.symm
      subst hb
      exact ⟨hmark, fun hne => absurd hhe hne⟩
  | cons b0 t0 =>
      refine ⟨hfiles, hhunks, fun _ => by simp, ?_⟩
      intro b t hbt
      rw [List.cons_append] at hbt
      have hb : b = b0 := by
        have := congrArg List.head? hbt
        simpa using this.symm
      subst hb
      exact hbuf b t0 rfl

theorem pstep_pinv (st : PState) (ln : String) (h : pinv st) : pinv (pstep st ln) := by
  obtain ⟨hfiles, hhunks, hbe, hbuf⟩ := h
  unfold pstep
  cases hm : matchFileHeader ln with
  | some path =>
      refine ⟨?_, trivial, fun hx => hx,
        fun b t hbt => absurd (show ([] : List String) = b :: t from hbt) (by simp)⟩
      cases st.current with
      | none => exact hfiles
      | some f =>
          intro e he
          rcases mem_dictSet _ _ _ _ he with h1 | h1
          · exact hfiles e h1
          · rw [h1]
            exact flushBuf_ok _ _ hhunks hbuf
  | none =>
      by_cases h1 : strStartsWith ln "@@" = true
      · rw [if_pos h1]
        refine ⟨hfiles, flushBuf_ok _ _ hhunks hbuf, fun _ => by simp, ?_⟩
        intro b t hbt
        have hbt' : ([ln] : List String) = b :: t := hbt
        have hb : b = ln := by
          have := congrArg List.head? hbt'
          simpa using this.symm
        subst hb
        exact ⟨Or.inl h1, fun _ => h1⟩
      · rw [if_neg h1]
        by_cases h2 : (st.current.isSome &&
            (strStartsWith ln "+" || strStartsWith ln "-" || strStartsWith ln " ")) = true
        · rw [if_pos h2]
          have hmark : hunkStartsBody ln := by
            have h2' := h2
            simp only [Bool.and_eq_true, Bool.or_eq_true] at h2'
            rcases h2' with ⟨-, (h3 | h4) | h5⟩
            · exact Or.inr (Or.inl h3)
            · exact Or.inr (Or.inr (Or.inl h4))
            · exact Or.inr (Or.inr (Or.inr h5))
          exact pinv_buf_append st.files st.current st.hunks st.buf ln
            hfiles hhunks hbe hbuf hmark
        · rw [if_neg h2]
          exact ⟨hfiles, hhunks, hbe, hbuf⟩

theorem pfinal_hunksOk (st : PState) (h : pinv st) : ∀ e ∈ pfinal st, hunksOk e.2 := by
  obtain ⟨hfiles, hhunks, _, hbuf⟩ := h
  unfold pfinal
  cases st.current with
  | none => exact hfiles
  | some f =>
      intro e he
      rcases mem_dictSet _ _ _ _ he with h1 | h1
      · exact hfiles e h1
      · rw [h1]
        exact flushBuf_ok _ _ hhunks hbuf

/-- Claim C4 counterexample: the claim states every hunk string begins
with a line starting with `@@`.  Body lines that appear after a
`+++ b/<path>` header but before any `@@` line are collected into a hunk
of their own: on `+++ b/a\n+x` the single hunk is `"+x"`. -/
theorem claimC4_cex :
    parse_file_hunks "+++ b/a\n+x" = [("a", ["+x"])] ∧
    strStartsWith "+x" "@@" = false := by
  constructor <;> decide

/-- Claim C4 amended: in every hunk list produced by `parse_file_hunks`,
every hunk after the first begins with `@@`; the first hunk begins with
`@@` or with a `+`/`-`/space body line (the latter happens exactly when
body lines precede the first `@@` of a file section). -/
theorem claimC4_amended (d : String) (e : String × List String)
    (he : e ∈ parse_file_hunks d) : hunksOk e.2 := by
  unfold parse_file_hunks at he
  by_cases hd : d = ""
  · rw [if_pos hd] at he
    cases he
  · rw [if_neg hd] at he
    refine pfinal_hunksOk _ ?_ e he
    refine foldl_pstep_inv pinv pstep_pinv (splitlines d) _ ?_
    exact ⟨by simp, trivial, by simp, by simp⟩

/-- Witness for C4 amended on a diff whose first hunk is a marker-only
body block and whose second starts with `@@`. -/
theorem claimC4_witness :
    ("a", ["+x", "@@ h\n+y"]) ∈ parse_file_hunks "+++ b/a\n+x\n@@ h\n+y" ∧
    hunksOk ["+x", "@@ h\n+y"] :=
  ⟨by decide,
    claimC4_amended "+++ b/a\n+x\n@@ h\n+y" ("a", ["+x", "@@ h\n+y"]) (by decide)⟩

/-! ### Claim C5 -/

theorem file_identity_eval (g a : String) (gf af : HunkMap) (hne : ¬(gf = [] ∧ af = []))
    (n k : ℕ)
    (hcard : (keysUnion gf af).card = n)
    (hk : ((keysUnion gf af).filter (fun p =>
        dget gf p ≠ [] ∧ dget af p ≠ [] ∧ dget gf p = dget af p)).card = k)
    (hn : n ≠ 0) :
    file_identity_score g a gf af = (k : ℚ) / (n : ℚ) := by
  unfold file_identity_score
  rw [if_neg hne]
  rw [if_neg (fun h0 => hn (by rw [h0] at hcard; simpa using hcard.symm))]
  rw [hcard, hk]

theorem dget_mem_ne_nil (m : HunkMap) (p : String) (hp : p ∈ m.map Prod.fst)
    (h3 : ∀ e ∈ m, e.2 ≠ []) : dget m p ≠ [] := by
  unfold dget
  cases hf : m.find? (fun e => e.1 == p) with
  | some e => exact h3 e (List.mem_of_find?_eq_some hf)
  | none =>
      rcases List.mem_map.mp hp with ⟨e, he, hfst⟩
      have hnone := List.find?_eq_none.mp hf e he
      simp [hfst] at hnone

/-- Claim C5 counterexample: the claim asks only for "at least one
well-formed file/hunk section".  The diff below has one well-formed
section (`b.py`) but also a file header (`a.py`) with no hunks; the
`a.py` entry has an empty hunk list on both sides, is not counted as a
file match, and `score(d, d) = 0.75`, not `1.0`. -/
theorem claimC5_cex :
    pyStrip "+++ b/a.py\n+++ b/b.py\n@@ h\n+x" = "+++ b/a.py\n+++ b/b.py\n@@ h\n+x" ∧
    ("+++ b/a.py\n+++ b/b.py\n@@ h\n+x" : String) ≠ "" ∧
    ("b.py", ["@@ h\n+x"]) ∈ parse_file_hunks "+++ b/a.py\n+++ b/b.py\n@@ h\n+x" ∧
    score_patch_similarity "+++ b/a.py\n+++ b/b.py\n@@ h\n+x"
      "+++ b/a.py\n+++ b/b.py\n@@ h\n+x" = 3/4 := by
  have hstrip : pyStrip "+++ b/a.py\n+++ b/b.py\n@@ h\n+x"
      = "+++ b/a.py\n+++ b/b.py\n@@ h\n+x" := by decide
  refine ⟨hstrip, by decide, by decide, ?_⟩
  rw [score_eval _ _ (by decide)]
  rw [hstrip]
  have hp : parse_file_hunks "+++ b/a.py\n+++ b/b.py\n@@ h\n+x"
      = [("a.py", []), ("b.py", ["@@ h\n+x"])] := by decide
  rw [hp]
  have hfis : file_identity_score
      "+++ b/a.py\n+++ b/b.py\n@@ h\n+x" "+++ b/a.py\n+++ b/b.py\n@@ h\n+x"
      [("a.py", []), ("b.py", ["@@ h\n+x"])] [("a.py", []), ("b.py", ["@@ h\n+x"])]
      = (1 : ℚ) / (2 : ℚ) := by
    have h1 : ((1 : ℕ) : ℚ) = (1 : ℚ) := by norm_num
    have h2 : ((2 : ℕ) : ℚ) = (2 : ℚ) := by norm_num
    rw [← h1, ← h2]
    exact file_identity_eval _ _ _ _ (by simp) 2 1 (by decide) (by decide) (by norm_num)
  rw [hfis]
  have hcol : collect_funcs_vars_from_files_map
      [("a.py", []), ("b.py", ["@@ h\n+x"])] = (∅, ∅) := by decide
  rw [hcol]
  norm_num [jaccard_empty_empty, pymin, pymax]

theorem keysUnion_self_ne_empty (m : HunkMap) (h : m ≠ []) : keysUnion m m ≠ ∅ := by
  unfold keysUnion
  rw [Finset.union_self]
  intro h0
  apply h
  have : m.map Prod.fst = [] := by
    cases hm : m.map Prod.fst with
    | nil => rfl
    | cons x xs =>
        rw [hm] at h0
        have : x ∈ (x :: xs).toFinset := by simp
        rw [h0] at this
        cases this
  cases m with
  | nil => rfl
  | cons e es => simp at this

/-- Claim C5 amended: `score(d, d) = 1.0` for every `d` non-empty after
trimming that parses to a non-empty map in which every file section has at
least one hunk.  (The counterexample forces the extra condition: a file
header with no hunks under it breaks the per-path match test.) -/
theorem claimC5_amended (d : String) (h1 : pyStrip d ≠ "")
    (h2 : parse_file_hunks (pyStrip d) ≠ [])
    (h3 : ∀ e ∈ parse_file_hunks (pyStrip d), e.2 ≠ []) :
    score_patch_similarity d d = 1 := by
  rw [score_eval d d (by simp [h1])]
  have hfis : file_identity_score (pyStrip d) (pyStrip d)
      (parse_file_hunks (pyStrip d)) (parse_file_hunks (pyStrip d)) = 1 := by
    unfold file_identity_score
    rw [if_neg (by simp [h2])]
    rw [if_neg (keysUnion_self_ne_empty _ h2)]
    have hfil : (keysUnion (parse_file_hunks (pyStrip d)) (parse_file_hunks (pyStrip d))).filter
        (fun p => dget (parse_file_hunks (pyStrip d)) p ≠ [] ∧
          dget (parse_file_hunks (pyStrip d)) p ≠ [] ∧
          dget (parse_file_hunks (pyStrip d)) p = dget (parse_file_hunks (pyStrip d)) p)
        = keysUnion (parse_file_hunks (pyStrip d)) (parse_file_hunks (pyStrip d)) := by
      apply Finset.filter_true_of_mem
      intro p hp
      have hpk : p ∈ (parse_file_hunks (pyStrip d)).map Prod.fst := by
        unfold keysUnion at hp
        rw [Finset.union_self] at hp
        exact List.mem_toFinset.mp hp
      have hne := dget_mem_ne_nil _ p hpk h3
      exact ⟨hne, hne, rfl⟩
    rw [hfil]
    apply div_self
    have hpos : 0 < (keysUnion (parse_file_hunks (pyStrip d))
        (parse_file_hunks (pyStrip d))).card :=
      Finset.card_pos.mpr (Finset.nonempty_iff_ne_empty.mpr (keysUnion_self_ne_empty _ h2))
    exact_mod_cast hpos.ne.symm
  rw [hfis, jaccard_self, jaccard_self]
  norm_num [pymin, pymax]

/-- Witness for C5 amended at a one-file one-hunk diff. -/
theorem claimC5_witness :
    pyStrip "+++ b/a\n@@ h\n+x" ≠ "" ∧
    parse_file_hunks (pyStrip "+++ b/a\n@@ h\n+x") ≠ [] ∧
    (∀ e ∈ parse_file_hunks (pyStrip "+++ b/a\n@@ h\n+x"), e.2 ≠ []) ∧
    score_patch_similarity "+++ b/a\n@@ h\n+x" "+++ b/a\n@@ h\n+x" = 1 :=
  ⟨by decide, by decide, by decide,
    claimC5_amended "+++ b/a\n@@ h\n+x" (by decide) (by decide) (by decide)⟩

/-! ### Claim C6 -/

theorem pymax_pymin_bounds (x : ℚ) :
    0 ≤ pymax 0 (pymin 1 x) ∧ pymax 0 (pymin 1 x) ≤ 1 := by
  unfold pymax pymin
  by_cases h1 : (1 : ℚ) ≤ x
  · rw [if_pos h1]
    norm_num
  · rw [if_neg h1]
    by_cases h2 : x ≤ 0
    · rw [if_pos h2]
      norm_num
    · rw [if_neg h2]
      exact ⟨le_of_not_le h2, le_of_not_le h1⟩

/-- Claim C6 counterexample: at `("", "")` the early return yields `0.0`,
while the clamped weighted formula, with the components evaluated by their
stated conventions (file fallback `0`, Jaccard of two empty sets `1`),
gives `0.5`; so "for every pair of inputs the score equals the clamped
formula" fails at the both-empty pair. -/
theorem claimC6_cex :
    score_patch_similarity "" "" = 0 ∧
    pymax 0 (pymin 1 (
      (0.5 : ℚ) * file_identity_score (pyStrip "") (pyStrip "")
          (parse_file_hunks (pyStrip "")) (parse_file_hunks (pyStrip ""))
      + (0.35 : ℚ) * jaccard
          (collect_funcs_vars_from_files_map (parse_file_hunks (pyStrip ""))).1
          (collect_funcs_vars_from_files_map (parse_file_hunks (pyStrip ""))).1
      + (0.15 : ℚ) * jaccard
          (collect_funcs_vars_from_files_map (parse_file_hunks (pyStrip ""))).2
          (collect_funcs_vars_from_files_map (parse_file_hunks (pyStrip ""))).2)) = 1/2 := by
  constructor
  · unfold score_patch_similarity
    rw [if_pos ⟨rfl, rfl⟩]
  · rw [pyStrip_empty, parse_empty_diff, collect_nil]
    have hfis : file_identity_score "" "" [] [] = 0 := by
      unfold file_identity_score
      rw [if_pos ⟨rfl, rfl⟩, if_neg (by simp)]
    rw [hfis]
    norm_num [jaccard_empty_empty, pymin, pymax]

/-- Claim C6 amended: the returned value always lies in `[0, 1]`, and for
every pair of inputs that does not trim to two empty strings (the early
`0.0` return) the score is exactly the clamped weighted sum
`0.5*fileScore + 0.35*funcScore + 0.15*varScore`. -/
theorem claimC6_amended (g a : String) :
    (0 ≤ score_patch_similarity g a ∧ score_patch_similarity g a ≤ 1) ∧
    (¬(pyStrip g = "" ∧ pyStrip a = "") →
      score_patch_similarity g a =
        pymax 0 (pymin 1 (
          (0.5 : ℚ) * file_identity_score (pyStrip g) (pyStrip a)
              (parse_file_hunks (pyStrip g)) (parse_file_hunks (pyStrip a))
          + (0.35 : ℚ) * jaccard
              (collect_funcs_vars_from_files_map (parse_file_hunks (pyStrip g))).1
              (collect_funcs_vars_from_files_map (parse_file_hunks (pyStrip a))).1
          + (0.15 : ℚ) * jaccard
              (collect_funcs_vars_from_files_map (parse_file_hunks (pyStrip g))).2
              (collect_funcs_vars_from_files_map (parse_file_hunks (pyStrip a))).2))) := by
  constructor
  · unfold score_patch_similarity
    by_cases hc : pyStrip g = "" ∧ pyStrip a = ""
    · rw [if_pos hc]
      norm_num
    · rw [if_neg hc]
      exact pymax_pymin_bounds _
  · intro h
    exact score_eval g a h

/-- Witness for C6 amended at `("x", "")`, discharging the non-empty
hypothesis of the formula part. -/
theorem claimC6_witness :
    (0 ≤ score_patch_similarity "x" "" ∧ score_patch_similarity "x" "" ≤ 1) ∧
    ¬(pyStrip "x" = "" ∧ pyStrip "" = "") ∧
    score_patch_similarity "x" "" =
      pymax 0 (pymin 1 (
        (0.5 : ℚ) * file_identity_score (pyStrip "x") (pyStrip "")
            (parse_file_hunks (pyStrip "x")) (parse_file_hunks (pyStrip ""))
        + (0.35 : ℚ) * jaccard
            (collect_funcs_vars_from_files_map (parse_file_hunks (pyStrip "x"))).1
            (collect_funcs_vars_from_files_map (parse_file_hunks (pyStrip ""))).1
        + (0.15 : ℚ) * jaccard
            (collect_funcs_vars_from_files_map (parse_file_hunks (pyStrip "x"))).2
            (collect_funcs_vars_from_files_map (parse_file_hunks (pyStrip ""))).2)) :=
  ⟨(claimC6_amended "x" "").1, by decide, (claimC6_amended "x" "").2 (by decide)⟩

/-! ### Claim C10 -/

theorem dropWhile_append_all {p : Char → Bool} : ∀ (xs ys : List Char),
    (∀ c ∈ xs, p c = true) → List.dropWhile p (xs ++ ys) = List.dropWhile p ys := by
  intro xs
  induction xs with
  | nil => intro ys _; rfl
  | cons x xt ih =>
      intro ys h
      rw [List.cons_append, List.dropWhile_cons, if_pos (h x (by simp))]
      exact ih ys (fun c hc => h c (by simp [hc]))

theorem takeWhile_append_all {p : Char → Bool} : ∀ (xs ys : List Char),
    (∀ c ∈ xs, p c = true) → List.takeWhile p (xs ++ ys) = xs ++ List.takeWhile p ys := by
  intro xs
  induction xs with
  | nil => intro ys _; rfl
  | cons x xt ih =>
      intro ys h
      rw [List.cons_append, List.takeWhile_cons, if_pos (h x (by simp)), List.cons_append]
      rw [ih ys (fun c hc => h c (by simp [hc]))]

theorem takeWhile_nil_of_head {p : Char → Bool} (l : List Char)
    (h : ∀ c, l.head? = some c → p c = false) : List.takeWhile p l = [] := by
  cases l with
  | nil => rfl
  | cons a t => rw [List.takeWhile_cons, if_neg (by simp [h a rfl])]

theorem isPyWs_char_cases (c : Char) (h : isPyWs c = true) :
    c = ' ' ∨ c = '\t' ∨ c = '\n' ∨ c = '\r' ∨ c.toNat = 11 ∨ c.toNat = 12 := by
  unfold isPyWs at h
  simp only [Bool.or_eq_true, beq_iff_eq] at h
  tauto

theorem isPyWs_isWordChar_false (c : Char) (h : isPyWs c = true) : isWordChar c = false := by
  have hu : (c == '_') = false → isWordChar c =
      ((decide (97 ≤ c.toNat) && decide (c.toNat ≤ 122)) ||
       (decide (65 ≤ c.toNat) && decide (c.toNat ≤ 90)) ||
       (decide (48 ≤ c.toNat) && decide (c.toNat ≤ 57)) || false) := by
    intro hneq
    unfold isWordChar
    rw [hneq]
  rcases isPyWs_char_cases c h with h1 | h1 | h1 | h1 | h1 | h1
  · subst h1; decide
  · subst h1; decide
  · subst h1; decide
  · subst h1; decide
  · rw [hu (by
      rw [beq_eq_false_iff_ne]
      intro he
      rw [he] at h1
      exact absurd h1 (by decide)), h1]
    decide
  · rw [hu (by
      rw [beq_eq_false_iff_ne]
      intro he
      rw [he] at h1
      exact absurd h1 (by decide)), h1]
    decide

theorem isWordChar_isPyWs_false (c : Char) (h : isWordChar c = true) : isPyWs c = false := by
  cases hb : isPyWs c with
  | false => rfl
  | true =>
      rw [isPyWs_isWordChar_false c hb] at h
      cases h

theorem isIdentStart_isWordChar (c : Char) (h : isIdentStart c = true) :
    isWordChar c = true := by
  unfold isIdentStart at h
  unfold isWordChar
  simp only [Bool.or_eq_true] at h ⊢
  rcases h with (h | h) | h
  · exact Or.inl (Or.inl (Or.inl h))
  · exact Or.inl (Or.inl (Or.inr h))
  · exact Or.inr h

theorem matchIdent_cons (c : Char) (rest : List Char) :
    matchIdent (c :: rest) =
      if isIdentStart c = true then
        some (String.mk (c :: rest.takeWhile isWordChar), rest.dropWhile isWordChar)
      else none := rfl

theorem eq_append_of_isPrefixOf : ∀ (p l : List Char), p.isPrefixOf l = true →
    ∃ t, l = p ++ t := by
  intro p
  induction p with
  | nil => exact fun l _ => ⟨l, rfl⟩
  | cons a as ih =>
      intro l h
      cases l with
      | nil => simp [List.isPrefixOf] at h
      | cons b bs =>
          have h' : (a == b && as.isPrefixOf bs) = true := h
          rw [Bool.and_eq_true] at h'
          rcases ih bs h'.2 with ⟨t, ht⟩
          refine ⟨t, ?_⟩
          rw [List.cons_append, ← ht, beq_iff_eq.mp h'.1]

theorem isPrefixOf_word_split : ∀ (kw nd tail : List Char),
    (∀ c ∈ kw, isWordChar c = true) → (∀ c ∈ nd, isWordChar c = true) →
    (∀ c0, tail.head? = some c0 → isWordChar c0 = false) →
    kw.isPrefixOf (nd ++ tail) = true → ∃ s, nd = kw ++ s := by
  intro kw
  induction kw with
  | nil => exact fun nd tail _ _ _ _ => ⟨nd, rfl⟩
  | cons k ks ih =>
      intro nd tail hkw hnd htail hpre
      cases nd with
      | nil =>
          rw [List.nil_append] at hpre
          cases htc : tail with
          | nil =>
              rw [htc] at hpre
              simp [List.isPrefixOf] at hpre
          | cons t ts =>
              rw [htc] at hpre
              have h' : (k == t && ks.isPrefixOf ts) = true := hpre
              rw [Bool.and_eq_true] at h'
              have hk : isWordChar k = true := hkw k (by simp)
              have ht : isWordChar t = false := htail t (by rw [htc]; rfl)
              rw [beq_iff_eq.mp h'.1, ht] at hk
              cases hk
      | cons n ns =>
          rw [List.cons_append] at hpre
          have h' : (k == n && ks.isPrefixOf (ns ++ tail)) = true := hpre
          rw [Bool.and_eq_true] at h'
          obtain ⟨s, hs⟩ := ih ns tail (fun c hc => hkw c (by simp [hc]))
            (fun c hc => hnd c (by simp [hc])) htail h'.2
          refine ⟨s, ?_⟩
          rw [List.cons_append, ← hs, beq_iff_eq.mp h'.1]

theorem head_not_word_tail (ws2 r : List Char) (hws2 : ∀ c ∈ ws2, isPyWs c = true) :
    ∀ c0, (ws2 ++ '=' :: r).head? = some c0 → isWordChar c0 = false := by
  intro c0 hc0
  cases ws2 with
  | nil =>
      have hc : c0 = '=' := by simpa using hc0.symm
      subst hc
      decide
  | cons w ws2' =>
      have hc : c0 = w := by simpa using hc0.symm
      subst hc
      exact isPyWs_isWordChar_false c0 (hws2 c0 (by simp))

theorem identName_parts (name : String) (h : isIdentNameB name = true) :
    ∃ n0 cs, name.data = n0 :: cs ∧ isIdentStart n0 = true ∧
      ∀ c ∈ cs, isWordChar c = true := by
  unfold isIdentNameB at h
  cases hd : name.data with
  | nil => rw [hd] at h; cases h
  | cons c cs =>
      rw [hd] at h
      have h' : (isIdentStart c && List.all cs isWordChar) = true := h
      rw [Bool.and_eq_true] at h'
      refine ⟨c, cs, rfl, h'.1, ?_⟩
      intro x hx
      exact List.all_eq_true.mp h'.2 x hx

theorem matchKwDecl_shape_none (kw finals ws1 nd ws2 r : List Char)
    (hkw : ∀ c ∈ kw, isWordChar c = true)
    (hws1 : ∀ c ∈ ws1, isPyWs c = true)
    (hnd : ∀ c ∈ nd, isWordChar c = true) (hne : nd ≠ [])
    (hws2 : ∀ c ∈ ws2, isPyWs c = true) :
    matchKwDecl kw finals (ws1 ++ (nd ++ (ws2 ++ '=' :: r))) = none := by
  obtain ⟨n0, nd', hnd0⟩ : ∃ n0 nd', nd = n0 :: nd' := by
    cases nd with
    | nil => exact absurd rfl hne
    | cons x xs => exact ⟨x, xs, rfl⟩
  unfold matchKwDecl
  have hskip : skipWs (ws1 ++ (nd ++ (ws2 ++ '=' :: r))) = nd ++ (ws2 ++ '=' :: r) := by
    unfold skipWs
    rw [dropWhile_append_all ws1 _ hws1]
    rw [hnd0, List.cons_append, List.dropWhile_cons,
      if_neg (by simp [isWordChar_isPyWs_false n0 (hnd n0 (by rw [hnd0]; simp))])]
  rw [hskip]
  unfold matchLit
  by_cases hpre : kw.isPrefixOf (nd ++ (ws2 ++ '=' :: r)) = true
  · rw [if_pos hpre]
    simp only [Option.elim]
    obtain ⟨s, hs⟩ := isPrefixOf_word_split kw nd (ws2 ++ '=' :: r) hkw hnd
      (head_not_word_tail ws2 r hws2) hpre
    have hdrop : (nd ++ (ws2 ++ '=' :: r)).drop kw.length = s ++ (ws2 ++ '=' :: r) := by
      rw [hs, List.append_assoc]
      exact List.drop_left kw (s ++ (ws2 ++ '=' :: r))
    rw [hdrop]
    cases hsc : s with
    | cons c' s' =>
        have hcw : isWordChar c' = true := hnd c' (by rw [hs, hsc]; simp)
        have htk : List.takeWhile isPyWs ((c' :: s') ++ (ws2 ++ '=' :: r)) = [] := by
          rw [List.cons_append]
          exact takeWhile_nil_of_head _ (by
            intro c0 hc0
            have hc : c0 = c' := by simpa using hc0.symm
            subst hc
            exact isWordChar_isPyWs_false _ hcw)
        rw [htk]
        rfl
    | nil =>
        rw [List.nil_append]
        cases hw2c : ws2 with
        | nil =>
            rw [List.nil_append]
            have htk : List.takeWhile isPyWs ('=' :: r) = [] :=
              takeWhile_nil_of_head _ (by
                intro c0 hc0
                have hc : c0 = '=' := by simpa using hc0.symm
                subst hc
                decide)
            rw [htk]
            rfl
        | cons w ws2' =>
            have hw : isPyWs w = true := hws2 w (by rw [hw2c]; simp)
            rw [List.cons_append, List.takeWhile_cons, if_pos hw]
            rw [show (w :: List.takeWhile isPyWs (ws2' ++ '=' :: r)).isEmpty = false from rfl]
            rw [if_neg (by simp)]
            have hskip2 : skipWs (w :: (ws2' ++ '=' :: r)) = '=' :: r := by
              unfold skipWs
              rw [List.dropWhile_cons, if_pos hw]
              rw [dropWhile_append_all ws2' _ (fun c hc => hws2 c (by rw [hw2c]; simp [hc]))]
              exact dropWhile_of_head_not _ (by
                intro c0 hc0
                have hc : c0 = '=' := by simpa using hc0.symm
                subst hc
                decide)
            rw [hskip2]
            rw [show matchIdent ('=' :: r) = none from by
              rw [matchIdent_cons, if_neg (by decide)]]
  · rw [if_neg hpre]
    rfl

theorem matchAssignLine_shape (ws1 ws2 r : List Char) (name : String)
    (hws1 : ∀ c ∈ ws1, isPyWs c = true)
    (hws2 : ∀ c ∈ ws2, isPyWs c = true)
    (hname : isIdentNameB name = true) :
    matchAssignLine (ws1 ++ (name.data ++ (ws2 ++ '=' :: r))) = some name := by
  obtain ⟨n0, cs, hd, hst, hall⟩ := identName_parts name hname
  unfold matchAssignLine
  have hskip : skipWs (ws1 ++ (name.data ++ (ws2 ++ '=' :: r)))
      = name.data ++ (ws2 ++ '=' :: r) := by
    unfold skipWs
    rw [dropWhile_append_all ws1 _ hws1]
    rw [hd, List.cons_append, List.dropWhile_cons,
      if_neg (by simp [isWordChar_isPyWs_false n0 (isIdentStart_isWordChar n0 hst)])]
  rw [hskip]
  have hmi : matchIdent (name.data ++ (ws2 ++ '=' :: r)) = some (name, ws2 ++ '=' :: r) := by
    rw [hd, List.cons_append, matchIdent_cons, if_pos hst]
    have ht : List.takeWhile isWordChar (cs ++ (ws2 ++ '=' :: r)) = cs := by
      rw [takeWhile_append_all cs _ hall,
        takeWhile_nil_of_head _ (head_not_word_tail ws2 r hws2), List.append_nil]
    have hdp : List.dropWhile isWordChar (cs ++ (ws2 ++ '=' :: r)) = ws2 ++ '=' :: r := by
      rw [dropWhile_append_all cs _ hall]
      exact dropWhile_of_head_not _ (head_not_word_tail ws2 r hws2)
    rw [ht, hdp]
    have hmk : String.mk (n0 :: cs) = name := by rw [← hd]
    rw [hmk]
  rw [hmi]
  simp only [Option.elim]
  have hskip2 : skipWs (ws2 ++ '=' :: r) = '=' :: r := by
    unfold skipWs
    rw [dropWhile_append_all ws2 _ hws2]
    exact dropWhile_of_head_not _ (by
      intro c0 hc0
      have hc : c0 = '=' := by simpa using hc0.symm
      subst hc
      decide)
  rw [hskip2]
  simp

theorem exstep_snd_mono (acc : Finset String × Finset String) (ln : String) (x : String)
    (hx : x ∈ acc.2) : x ∈ (exstep acc ln).2 := by
  unfold exstep
  cases matchDefLine (stripMarker ln) with
  | some n => exact hx
  | none =>
      cases matchClassLine (stripMarker ln) with
      | some n => exact hx
      | none =>
          cases matchAssignLine (stripMarker ln) with
          | some n => exact Finset.mem_insert_of_mem hx
          | none => exact hx

theorem foldl_exstep_mono : ∀ (lines : List String) (acc : Finset String × Finset String)
    (x : String), x ∈ acc.2 → x ∈ (lines.foldl exstep acc).2 := by
  intro lines
  induction lines with
  | nil => exact fun _ _ hx => hx
  | cons l ls ih =>
      intro acc x hx
      rw [List.foldl_cons]
      exact ih _ x (exstep_snd_mono acc l x hx)

theorem foldl_exstep_assign : ∀ (lines : List String) (acc : Finset String × Finset String)
    (ln name : String), ln ∈ lines →
    matchDefLine (stripMarker ln) = none →
    matchClassLine (stripMarker ln) = none →
    matchAssignLine (stripMarker ln) = some name →
    name ∈ (lines.foldl exstep acc).2 := by
  intro lines
  induction lines with
  | nil => intro acc ln name hmem _ _ _; cases hmem
  | cons l ls ih =>
      intro acc ln name hmem hd hc ha
      rcases List.mem_cons.mp hmem with h1 | h1
      · subst h1
        rw [List.foldl_cons]
        apply foldl_exstep_mono
        unfold exstep
        rw [hd, hc, ha]
        exact Finset.mem_insert_self _ _
      · rw [List.foldl_cons]
        exact ih _ ln name h1 hd hc ha

/-- Claim C10: a hunk line whose content (after stripping a leading
`+`/`-`/space marker) is optional whitespace, an identifier, optional
whitespace, then `==`, contributes that identifier to the variable set:
the anchored assignment regex matches the first `=` of the `==`, while the
`def`/`class` patterns cannot match such a line. -/
theorem claimC10_double_eq_assign (hunk ln : String) (ws1 ws2 rest : List Char) (name : String)
    (hmem : ln ∈ splitlines hunk)
    (hshape : stripMarker ln = ws1 ++ (name.data ++ (ws2 ++ '=' :: '=' :: rest)))
    (hws1 : ∀ c ∈ ws1, isPyWs c = true)
    (hws2 : ∀ c ∈ ws2, isPyWs c = true)
    (hname : isIdentNameB name = true) :
    name ∈ (extract_funcs_and_vars_from_hunk hunk).2 := by
  obtain ⟨n0, cs, hd, hst, hall⟩ := identName_parts name hname
  have hndw : ∀ c ∈ name.data, isWordChar c = true := by
    intro c hc
    rw [hd] at hc
    rcases List.mem_cons.mp hc with h1 | h1
    · subst h1
      exact isIdentStart_isWordChar c hst
    · exact hall c h1
  have hdnil : name.data ≠ [] := by rw [hd]; simp
  unfold extract_funcs_and_vars_from_hunk
  apply foldl_exstep_assign (splitlines hunk) _ ln name hmem
  · rw [hshape]
    exact matchKwDecl_shape_none ['d', 'e', 'f'] ['('] ws1 name.data ws2 ('=' :: rest)
      (by decide) hws1 hndw hdnil hws2
  · rw [hshape]
    exact matchKwDecl_shape_none ['c', 'l', 'a', 's', 's'] [':', '('] ws1 name.data ws2
      ('=' :: rest) (by decide) hws1 hndw hdnil hws2
  · rw [hshape]
    exact matchAssignLine_shape ws1 ws2 ('=' :: rest) name hws1 hws2 hname

/-- Witness for C10 on the hunk `+x == 1`: the identifier `x` lands in the
variable set. -/
theorem claimC10_witness :
    ("+x == 1" : String) ∈ splitlines "+x == 1" ∧
    stripMarker "+x == 1" = [] ++ (("x" : String).data ++ ([' '] ++ '=' :: '=' :: [' ', '1'])) ∧
    isIdentNameB "x" = true ∧
    "x" ∈ (extract_funcs_and_vars_from_hunk "+x == 1").2 :=
  ⟨by decide, by decide, by decide,
    claimC10_double_eq_assign "+x == 1" "+x == 1" [] [' '] [' ', '1'] "x"
      (by decide) (by decide) (by decide) (by decide) (by decide)⟩

end ZedDoc
